import Mathlib

set_option linter.unnecessarySeqFocus false
set_option linter.unreachableTactic false
set_option linter.unusedTactic false

/-!
# Verification of the LC-equivalence core of `flamingpy/codes/graphs/egraph.py`

This file gives a shallow embedding, in Lean 4, of the linear-algebraic core of
`egraph.py`: the mod-2 row reducer `reduce_RREform_mod2`, the constraint builder
`lc_constraint_system`, the nullspace extractor `nullspace_basis`, the pairwise
searcher `search_nullspace`, the two Clifford decoders `clifford_vec_to_tensors`
and `clifford_vec_to_global`, and the orchestrator `EGraph.is_lc_equivalent`.

Matrices are embedded as `List (List Int)` (a dense 2-D integer array, row
major), matching the `numpy` integer arrays of the source.  Python's `%` on
`Int` agrees with Lean's `Int.emod` for a positive modulus (both return a
non-negative remainder), so `%` translates literally.

Two module-level names used by the source are not defined anywhere in the
module (nor imported; the module imports only `networkx` and `numpy`):

* `EGraph.is_lc_equivalent` (line 482) calls `system_constraints(G, H)`, while
  the module defines `lc_constraint_system`;
* `nullspace_basis` (line 192) calls `RREform_mod2(A, max_cols=n_cols)`, while
  the module defines `reduce_RREform_mod2`.

At runtime Python raises `NameError` at those call sites.  Fallible code is
therefore embedded with `Except PyErr`, and the two unbound-name call sites
are embedded as `Except.error (PyErr.nameError ...)`.
-/

/-- Errors raised by the embedded Python code: `ValueError(msg)` raised
explicitly by the source, and `NameError` for an unbound global name. -/
inductive PyErr where
  | valueError (msg : String)
  | nameError (name : String)
  deriving DecidableEq

/-- The decoded local-Clifford output of `is_lc_equivalent`: either the tensor
form (a list of 2x2 integer matrices) or the global form (one 2n x 2n
matrix).  Unreachable in the source because of the unbound name
`system_constraints`, but kept for the fidelity of the return type. -/
inductive Clifford where
  | tensor (ops : List (List (List Int)))
  | globalOp (mat : List (List Int))
  deriving DecidableEq

/-- Entry `(k, j)` of a row-major matrix; out-of-range reads default to `0`
(every in-range numpy access the source performs is in range, so the default
is never observable on the source's inputs). -/
def entry (R : List (List Int)) (k j : Nat) : Int :=
  (R.getD k []).getD j 0

/-- The numpy shape `(rows, cols)` of a dense matrix: `np.shape(M)`.  For the
rectangular arrays the source manipulates, the column count is the length of
the first row (`0` for the `0 x 0` array, as numpy reports for the adjacency
matrix of an empty graph). -/
def npShape (M : List (List Int)) : Nat × Nat :=
  (M.length, (M.headD []).length)

/-- Binary-matrix predicate: every entry of every row is `0` or `1`. -/
def Bin (M : List (List Int)) : Prop :=
  ∀ r ∈ M, ∀ x ∈ r, x = 0 ∨ x = 1

/-! ## `reduce_RREform_mod2` (source lines 101-137)

```
for j in range(max_cols):
    index = np.nonzero(R[p:, j])[0]
    if index.size == 0:
        continue
    i = p + index[0]
    R[[p, i], :] = R[[i, p], :]
    R[p, :] = R[p, :] / R[p, j]
    index = np.nonzero(R[:, j])[0].tolist()
    index.remove(p)
    R[index, :] = (R[index, :] - np.multiply.outer(R[index, j], R[p, :])) % 2
    p += 1
    if p == R.shape[0]:
        break
```
-/

/-- Offset (within `rows`) of the first row whose entry in column `j` is
nonzero: `np.nonzero(R[p:, j])[0][0]` on the suffix `rows = R[p:]`. -/
def findPivotAux (j : Nat) : List (List Int) → Option Nat
  | [] => none
  | r :: rs => if r.getD j 0 ≠ 0 then some 0 else (findPivotAux j rs).map (· + 1)

/-- Absolute index `i = p + index[0]` of the pivot row for column `j` at or
below row `p` (`none` when `index.size == 0`). -/
def findPivot (R : List (List Int)) (p j : Nat) : Option Nat :=
  (findPivotAux j (R.drop p)).map (p + ·)

/-- `R[[p, i], :] = R[[i, p], :]` — interchange rows `p` and `i`. -/
def swapRows (R : List (List Int)) (p i : Nat) : List (List Int) :=
  (R.set p (R.getD i [])).set i (R.getD p [])

/-- `R[p, :] = R[p, :] / R[p, j]` — normalize the pivot row.  On the binary
matrices of the source the pivot is `1`, so the division is exact. -/
def normalizeRow (R : List (List Int)) (p j : Nat) : List (List Int) :=
  R.set p ((R.getD p []).map (fun x => x / (R.getD p []).getD j 0))

/-- One row of the elimination update
`R[index, :] = (R[index, :] - np.multiply.outer(R[index, j], R[p, :])) % 2`:
row `r` (with coefficient `c = r[j]`) becomes `(r - c * pr) % 2` where `pr`
is the pivot row. -/
def elimRow (pr : List Int) (c : Int) (r : List Int) : List Int :=
  List.zipWith (fun a b => (a - c * b) % 2) r pr

/-- Apply the elimination update to every row whose index is in
`index = nonzero(R[:, j]) \ {p}`; `k` is the index of the head of the
remaining row list. -/
def eliminateAux (pr : List Int) (j p : Nat) : Nat → List (List Int) → List (List Int)
  | _, [] => []
  | k, r :: rs =>
    (if k = p ∨ r.getD j 0 = 0 then r else elimRow pr (r.getD j 0) r)
      :: eliminateAux pr j p (k + 1) rs

/-- The full elimination step for pivot row `p` and pivot column `j`. -/
def eliminate (R : List (List Int)) (p j : Nat) : List (List Int) :=
  eliminateAux (R.getD p []) j p 0 R

/-- The column loop of `reduce_RREform_mod2`: state `(R, p)`, iterating over
the remaining column indices.  `p += 1; if p == R.shape[0]: break` is the
early exit after a pivot is placed in the last row. -/
def rre_loop : List Nat → List (List Int) → Nat → List (List Int) × Nat
  | [], R, p => (R, p)
  | j :: rest, R, p =>
    match findPivot R p j with
    | none => rre_loop rest R p
    | some i =>
      let R3 := eliminate (normalizeRow (swapRows R p i) p j) p j
      if p + 1 = R.length then (R3, p + 1) else rre_loop rest R3 (p + 1)

/-- `reduce_RREform_mod2(M, max_cols=None)` (lines 101-137): row reduce the
first `max_cols` columns (default: the full width `M.shape[1]`) modulo 2 and
return the reduced matrix together with the pivot count. -/
def reduce_RREform_mod2 (M : List (List Int)) (max_cols : Option Nat := none) :
    List (List Int) × Nat :=
  let mc := max_cols.getD (M.headD []).length
  rre_loop (List.range mc) M 0

/-! ## `lc_constraint_system` (source lines 140-171) -/

/-- Horizontal concatenation of two row-major blocks with the same number of
rows (one row of `np.block([[X, Y]])`). -/
def hstack2 (X Y : List (List Int)) : List (List Int) :=
  List.zipWith (· ++ ·) X Y

/-- `lc_constraint_system(G, H)` (lines 140-171): for each qubit index `j`
build the blocks

* `A = np.diag(G[j])`,
* `B` zero except `B[j, j] = 1`,
* `C[k][i] = G[i, j] * H[i, k]`,
* `D` zero except `D[k, j] = H[j, k]`,

and return the `n^2 x 4n` matrix `np.block([[A, B, C, D] for j in range(n)])`
(the row blocks stacked vertically). -/
def lc_constraint_system (G H : List (List Int)) : List (List Int) :=
  let n := G.length
  (List.range n).flatMap (fun j =>
    let A := (List.range n).map (fun k =>
      (List.range n).map (fun i => if i = k then entry G j k else 0))
    let B := (List.range n).map (fun k =>
      (List.range n).map (fun i => if k = j ∧ i = j then 1 else 0))
    let C := (List.range n).map (fun k =>
      (List.range n).map (fun i => entry G i j * entry H i k))
    let D := (List.range n).map (fun k =>
      (List.range n).map (fun i => if i = j then entry H j k else 0))
    hstack2 (hstack2 (hstack2 A B) C) D)

/-! ## `nullspace_basis` (source lines 174-195) -/

/-- `nullspace_basis(M)` (lines 174-195).  The source transposes `M`,
augments with an identity block, and then calls `RREform_mod2(A,
max_cols=n_cols)` — but no name `RREform_mod2` is bound anywhere in the
module (the row reducer is named `reduce_RREform_mod2`), so Python raises
`NameError` before any reduction happens, on every input. -/
def nullspace_basis (_M : List (List Int)) : Except PyErr (List (List Int)) :=
  Except.error (PyErr.nameError "RREform_mod2")

/-! ## `search_nullspace` (source lines 198-254)

The nested loops `for i in range(d): for j in range(i): ...` try the mod-2 sum
of each pair of distinct basis rows in pair-index lexicographic order and
return the first sum that passes the per-qubit determinant check (`sols`
accumulates at most the single surviving candidate: every failing candidate is
popped before the next iteration, and the loops break at the first success, so
`sols[0]` is exactly the first passing sum).
-/

/-- The determinant check of lines 232-240: for every `k < n`,
`(sol[k] * sol[k + 3n] + sol[k + n] * sol[k + 2n]) % 2 == 1`. -/
def detOK (n : Nat) (sol : List Int) : Bool :=
  (List.range n).all (fun k =>
    (sol.getD k 0 * sol.getD (k + 3 * n) 0 +
      sol.getD (k + n) 0 * sol.getD (k + 2 * n) 0) % 2 == 1)

/-- `np.vectorize(lambda x: x % 2)(np.add(basis[i], basis[j]))` — the mod-2
sum of basis rows `i` and `j`. -/
def pairSum (basis : List (List Int)) (i j : Nat) : List Int :=
  List.zipWith (fun a b => (a + b) % 2) (basis.getD i []) (basis.getD j [])

/-- The pair indices `(i, j)` visited by the nested loops, in visit order:
`i` ascending over `range d`, and for each `i`, `j` ascending over
`range i`. -/
def lc_pairs (d : Nat) : List (Nat × Nat) :=
  (List.range d).flatMap (fun i => (List.range i).map (fun j => (i, j)))

/-- The search over the remaining pairs: return the first mod-2 pair sum that
passes the determinant check. -/
def searchPairs (basis : List (List Int)) (n : Nat) : List (Nat × Nat) → Option (List Int)
  | [] => none
  | (i, j) :: rest =>
    let sol := pairSum basis i j
    if detOK n sol then some sol else searchPairs basis n rest

/-- `search_nullspace(basis)` (lines 198-254): `d = basis.shape[0]`,
`n = basis.shape[1] // 4`; return the first pair sum passing the determinant
check, or `None` when none does. -/
def search_nullspace (basis : List (List Int)) : Option (List Int) :=
  searchPairs basis ((basis.headD []).length / 4) (lc_pairs basis.length)

/-! ## Clifford decoders (source lines 257-315) -/

/-- `clifford_vec_to_tensors(vec)` (lines 257-283): with `n = len(vec) // 4`,
the `i`-th tensor factor is `[[vec[i], vec[i+n]], [vec[i+2n], vec[i+3n]]]`. -/
def clifford_vec_to_tensors (vec : List Int) : List (List (List Int)) :=
  let n := vec.length / 4
  (List.range n).map (fun i =>
    [[vec.getD i 0, vec.getD (i + n) 0],
     [vec.getD (i + 2 * n) 0, vec.getD (i + 3 * n) 0]])

/-- `clifford_vec_to_global(vec)` (lines 286-315): with `n = len(vec) // 4`,
`blocks[k] = np.diag([vec[i + k*n] for i in range(n)])` and the result is
`np.block([[blocks[0], blocks[1]], [blocks[2], blocks[3]]])`. -/
def clifford_vec_to_global (vec : List Int) : List (List Int) :=
  let n := vec.length / 4
  let block := fun (k : Nat) => (List.range n).map (fun r =>
    (List.range n).map (fun c => if c = r then vec.getD (r + k * n) 0 else 0))
  hstack2 (block 0) (block 1) ++ hstack2 (block 2) (block 3)

/-! ## `EGraph.is_lc_equivalent` (source lines 435-503)

The orchestrator receives the two dense adjacency matrices (the `EGraph`
collaborator and its `adj_generator(sparse=False)` accessor are outside the
embedded core; the `isinstance(..., np.ndarray)` check of line 461 is
satisfied by construction here, since the embedding's inputs are dense
matrices).  The validation cascade of lines 467-477 runs first; the first
statement after it (line 482) evaluates the unbound global name
`system_constraints`, so every run that passes validation raises `NameError`
there, before any verdict is produced. -/
def is_lc_equivalent (G H : List (List Int)) (_clifford_form : String) :
    Except PyErr (Bool × Option Clifford) :=
  if npShape G = (0, 0) ∨ npShape H = (0, 0) then Except.ok (false, none)
  else if npShape G ≠ npShape H then Except.ok (false, none)
  else if (npShape G).1 ≠ (npShape G).2 then
    Except.error (PyErr.valueError "Input matrices must be square.")
  else Except.error (PyErr.nameError "system_constraints")

/-! ## Row-reduction invariants

Predicates used to state and prove that the output of `reduce_RREform_mod2`
is a fixed point of the reduction. -/

/-- Entry-level binary predicate: every (defaulted) read from `R` is `0` or
`1`.  Equivalent to `Bin` for the reads the algorithm performs, but phrased
on indices, which is what the row-reduction proofs manipulate. -/
def BinE (R : List (List Int)) : Prop :=
  ∀ k j, entry R k j = 0 ∨ entry R k j = 1

/-- Column `j` is zero in every row at or below row `t`:
`np.nonzero(R[t:, j])` is empty. -/
def ZeroFromRow (R : List (List Int)) (t j : Nat) : Prop :=
  ∀ k, t ≤ k → k < R.length → entry R k j = 0

/-- Column `j` is a settled pivot column for row `t`: it holds `1` in row `t`
and `0` in every other row. -/
def UnitCol (R : List (List Int)) (t j : Nat) : Prop :=
  entry R t j = 1 ∧ ∀ k, k < R.length → k ≠ t → entry R k j = 0

/-- `ColsOK R t pv cols`: re-running the column loop of
`reduce_RREform_mod2` on the already-reduced matrix `R`, starting with pivot
count `t` and the remaining column list `cols`, performs no changes and finds
the pivot columns `pv` (in order).  `skip` is a column with no pivot at or
below the current row, `last` is a pivot placed in the final row (the loop's
early `break`, after which the remaining columns are not visited), and
`cont` is a pivot placed in a non-final row. -/
inductive ColsOK : List (List Int) → Nat → List Nat → List Nat → Prop where
  | nil (R : List (List Int)) (t : Nat) : ColsOK R t [] []
  | skip (R : List (List Int)) (t c : Nat) (pv rest : List Nat) :
      ZeroFromRow R t c → ColsOK R t pv rest → ColsOK R t pv (c :: rest)
  | last (R : List (List Int)) (t c : Nat) (rest : List Nat) :
      UnitCol R t c → t + 1 = R.length → ColsOK R t [c] (c :: rest)
  | cont (R : List (List Int)) (t c : Nat) (pv rest : List Nat) :
      UnitCol R t c → t + 1 ≠ R.length → ColsOK R (t + 1) pv rest →
      ColsOK R t (c :: pv) (c :: rest)

/-- Visit order of the searcher's nested loops: pair `q` is visited strictly
before pair `p` iff `q.1 < p.1` (earlier outer iteration) or `q.1 = p.1 ∧
q.2 < p.2` (same outer, earlier inner iteration). -/
def pairLexLt (q p : Nat × Nat) : Prop :=
  q.1 < p.1 ∨ (q.1 = p.1 ∧ q.2 < p.2)

/-! ## Basic list lemmas -/

theorem getD_oob {α : Type} (l : List α) (n : Nat) (d : α) (h : l.length ≤ n) :
    l.getD n d = d :=
  List.getD_eq_default l d h

theorem getD_lt {α : Type} (l : List α) (n : Nat) (d : α) (h : n < l.length) :
    l.getD n d = l[n] :=
  List.getD_eq_getElem l d h

theorem getD_append_lt {α : Type} (l l' : List α) (n : Nat) (d : α) (h : n < l.length) :
    (l ++ l').getD n d = l.getD n d :=
  List.getD_append l l' d n h

theorem getD_append_ge {α : Type} (l l' : List α) (n : Nat) (d : α) (h : l.length ≤ n) :
    (l ++ l').getD n d = l'.getD (n - l.length) d :=
  List.getD_append_right l l' d n h

theorem getD_map {α β : Type} (l : List α) (f : α → β) (n : Nat) (d : β) (d' : α)
    (h : n < l.length) : (l.map f).getD n d = f (l.getD n d') := by
  simp [List.getD_eq_getElem?_getD, List.getElem?_map, List.getElem?_eq_getElem h,
    getD_lt l n d' h]

theorem getD_range (n m : Nat) (h : m < n) : (List.range n).getD m 0 = m := by
  simp [List.getD_eq_getElem?_getD, List.getElem?_range h]

theorem getD_set_self {α : Type} (l : List α) (m : Nat) (a d : α) (h : m < l.length) :
    (l.set m a).getD m d = a := by
  simp [List.getD_eq_getElem?_getD, List.getElem?_set_self h]

theorem getD_set_ne {α : Type} (l : List α) (m k : Nat) (a d : α) (h : k ≠ m) :
    (l.set m a).getD k d = l.getD k d := by
  simp [List.getD_eq_getElem?_getD, List.getElem?_set, Ne.symm h]

theorem set_getD_self {α : Type} (l : List α) (m : Nat) (d : α) (h : m < l.length) :
    l.set m (l.getD m d) = l := by
  apply List.ext_getElem?
  intro n
  rw [List.getElem?_set]
  split
  · next he =>
    subst he
    simp [h, getD_lt l m d h, List.getElem?_eq_getElem h]
  · rfl

theorem getD_zipWith {α : Type} (f : α → α → α) (l l' : List α) (n : Nat) (d : α)
    (h1 : n < l.length) (h2 : n < l'.length) :
    (List.zipWith f l l').getD n d = f (l.getD n d) (l'.getD n d) := by
  simp [List.getD_eq_getElem?_getD, List.getElem?_zipWith,
    List.getElem?_eq_getElem, h1, h2, getD_lt _ _ _ h1, getD_lt _ _ _ h2]

theorem getD_mem {α : Type} (l : List α) (n : Nat) (d : α) (h : n < l.length) :
    l.getD n d ∈ l := by
  rw [getD_lt l n d h]
  exact List.getElem_mem h

/-! ## C8: symmetry of the orchestrator -/

/-- C8: for every pair of adjacency matrices `G`, `H` (in particular every
pair of same-size square binary matrices) and every output-form selector,
`is_lc_equivalent G H form` and `is_lc_equivalent H G form` are equal — the
two directions agree on the boolean verdict (and on everything else): the
emptiness, shape-mismatch and squareness cascades are symmetric in `G` and
`H` once the shapes agree, and both directions reach the same outcome
afterwards. -/
theorem is_lc_equivalent_symm (G H : List (List Int)) (form : String) :
    is_lc_equivalent G H form = is_lc_equivalent H G form := by
  unfold is_lc_equivalent
  by_cases h3 : npShape G = npShape H
  · rw [h3]
  · have h3' : npShape H ≠ npShape G := fun h => h3 h.symm
    by_cases h1 : npShape G = (0, 0) <;> by_cases h2 : npShape H = (0, 0) <;>
      simp [h1, h2, h3, h3']

/-! ## C6: orchestrator validation cascade -/

/-- C6: the orchestrator checks its inputs in the source's order with the
source's outcomes: an empty adjacency matrix (shape `(0, 0)`) yields the
normal result `(False, None)`; otherwise a shape mismatch yields `(False,
None)`; otherwise a non-square adjacency matrix raises
`ValueError("Input matrices must be square.")`.  The first two outcomes are
returned as ordinary values (`Except.ok`), never signaled as failures. -/
theorem is_lc_equivalent_validation :
    (∀ (G H : List (List Int)) (form : String),
      npShape G = (0, 0) ∨ npShape H = (0, 0) →
        is_lc_equivalent G H form = Except.ok (false, none)) ∧
    (∀ (G H : List (List Int)) (form : String),
      ¬(npShape G = (0, 0) ∨ npShape H = (0, 0)) → npShape G ≠ npShape H →
        is_lc_equivalent G H form = Except.ok (false, none)) ∧
    (∀ (G H : List (List Int)) (form : String),
      ¬(npShape G = (0, 0) ∨ npShape H = (0, 0)) → npShape G = npShape H →
      (npShape G).1 ≠ (npShape G).2 →
        is_lc_equivalent G H form =
          Except.error (PyErr.valueError "Input matrices must be square.")) := by
  refine ⟨?_, ?_, ?_⟩ <;> intro G H form <;> intros <;>
    simp_all [is_lc_equivalent]

/-- Witness for C6: each of the three validation branches is exercised on a
concrete input: two empty graphs, a `2 x 2` versus a `1 x 1` matrix, and a
pair of equal `2 x 3` non-square matrices. -/
theorem is_lc_equivalent_validation_witness :
    is_lc_equivalent [] [] "tensor" = Except.ok (false, none) ∧
    is_lc_equivalent [[0, 1], [1, 0]] [[0]] "tensor" = Except.ok (false, none) ∧
    is_lc_equivalent [[0, 1, 0], [1, 0, 1]] [[0, 1, 0], [1, 0, 1]] "tensor" =
      Except.error (PyErr.valueError "Input matrices must be square.") :=
  ⟨is_lc_equivalent_validation.1 [] [] "tensor" (by simp [npShape]),
   is_lc_equivalent_validation.2.1 [[0, 1], [1, 0]] [[0]] "tensor"
     (by simp [npShape]) (by simp [npShape]),
   is_lc_equivalent_validation.2.2 [[0, 1, 0], [1, 0, 1]] [[0, 1, 0], [1, 0, 1]] "tensor"
     (by simp [npShape]) rfl (by simp [npShape])⟩

/-! ## C2: the unbound names on the computation path -/

/-- C2: for every pair of non-empty same-shape square adjacency matrices the
orchestrator reaches line 482 and evaluates the unbound module-level name
`system_constraints`, raising `NameError` before any verdict is produced;
and `nullspace_basis` likewise evaluates the unbound name `RREform_mod2` on
every input.  Neither name is defined anywhere in the module (the defined
functions are `lc_constraint_system` and `reduce_RREform_mod2`), so the
computation path of steps 2-5 of the pipeline is unreachable. -/
theorem pipeline_unbound_names :
    (∀ (G H : List (List Int)) (n : Nat) (form : String), n ≠ 0 →
      npShape G = (n, n) → npShape H = (n, n) →
        is_lc_equivalent G H form = Except.error (PyErr.nameError "system_constraints")) ∧
    (∀ M : List (List Int),
      nullspace_basis M = Except.error (PyErr.nameError "RREform_mod2")) := by
  constructor
  · intro G H n form hn hG hH
    simp [is_lc_equivalent, hG, hH, hn, Prod.ext_iff]
  · intro M
    rfl

/-- Witness for C2: the single-edge graph on two vertices against itself. -/
theorem pipeline_unbound_names_witness :
    is_lc_equivalent [[0, 1], [1, 0]] [[0, 1], [1, 0]] "tensor" =
      Except.error (PyErr.nameError "system_constraints") ∧
    nullspace_basis [[1, 0]] = Except.error (PyErr.nameError "RREform_mod2") :=
  ⟨pipeline_unbound_names.1 [[0, 1], [1, 0]] [[0, 1], [1, 0]] 2 "tensor"
      (by decide) rfl rfl,
   pipeline_unbound_names.2 [[1, 0]]⟩

/-! ## C1: reflexivity fails on the code -/

/-- C1 (counterexample): on the single-edge graph `G = [[0, 1], [1, 0]]`
(square, symmetric, zero diagonal, two nodes), `is_lc_equivalent(G, G)` does
not return `(True, op)` for any local Clifford `op` — a fortiori not the
identity local Clifford — because the call raises `NameError` at the unbound
name `system_constraints` (line 482) before producing any verdict. -/
theorem is_lc_equivalent_self_not_ok :
    ¬ ∃ op : Clifford,
      is_lc_equivalent [[0, 1], [1, 0]] [[0, 1], [1, 0]] "tensor" =
        Except.ok (true, some op) := by
  rintro ⟨op, h⟩
  have he : is_lc_equivalent [[0, 1], [1, 0]] [[0, 1], [1, 0]] "tensor" =
      Except.error (PyErr.nameError "system_constraints") := rfl
  rw [he] at h
  exact Except.noConfusion h

/-- C1 (amended): for every non-empty square adjacency matrix `G`, calling
`is_lc_equivalent` on `G` against itself raises
`NameError("system_constraints")` instead of returning `(True, identity)`:
the validation cascade passes (same non-empty square shape on both sides)
and execution dies at the unbound name on line 482. -/
theorem is_lc_equivalent_self_nameError (G : List (List Int)) (n : Nat)
    (form : String) (hn : n ≠ 0) (hsq : npShape G = (n, n)) :
    is_lc_equivalent G G form = Except.error (PyErr.nameError "system_constraints") := by
  simp [is_lc_equivalent, hsq, hn, Prod.ext_iff]

/-- Witness for C1's amended theorem: the single-edge graph on two nodes. -/
theorem is_lc_equivalent_self_nameError_witness :
    is_lc_equivalent [[0, 1], [1, 0]] [[0, 1], [1, 0]] "global" =
      Except.error (PyErr.nameError "system_constraints") :=
  is_lc_equivalent_self_nameError [[0, 1], [1, 0]] 2 "global" (by decide) rfl

/-! ## C5: the nullspace extractor dies at its unbound name -/

/-- C5: evaluating `nullspace_basis` at the concrete failing input
`[[1, 0]]` (for which the claimed contract would demand the basis of the
right nullspace of a `1 x 2` matrix, a one-row basis) instead produces
`NameError("RREform_mod2")`: the source calls `RREform_mod2` (line 192)
while the module only defines `reduce_RREform_mod2`, so the extractor raises
before reducing anything, on every input. -/
theorem nullspace_basis_nameError_eval :
    nullspace_basis [[1, 0]] = Except.error (PyErr.nameError "RREform_mod2") := rfl

/-! ## C3, C4: the pairwise searcher -/

theorem mem_lc_pairs (d i j : Nat) : (i, j) ∈ lc_pairs d ↔ j < i ∧ i < d := by
  simp only [lc_pairs, List.mem_flatMap, List.mem_map, List.mem_range, Prod.mk.injEq]
  constructor
  · rintro ⟨a, ha, b, hb, rfl, rfl⟩
    exact ⟨hb, ha⟩
  · rintro ⟨hj, hi⟩
    exact ⟨i, hi, j, hj, rfl, rfl⟩

theorem pairwise_lc_pairs (d : Nat) : List.Pairwise pairLexLt (lc_pairs d) := by
  induction d with
  | zero => simp [lc_pairs]
  | succ m ih =>
    have hsplit : lc_pairs (m + 1) =
        lc_pairs m ++ (List.range m).map (fun j => (m, j)) := by
      simp [lc_pairs, List.range_succ]
    rw [hsplit]
    apply List.pairwise_append.mpr
    refine ⟨ih, ?_, ?_⟩
    · exact List.pairwise_map.mpr
        ((List.pairwise_lt_range m).imp (fun h => Or.inr ⟨rfl, h⟩))
    · intro a ha b hb
      obtain ⟨i, j⟩ := a
      obtain ⟨hji, hid⟩ := (mem_lc_pairs m i j).mp ha
      obtain ⟨j2, _, rfl⟩ := List.mem_map.mp hb
      exact Or.inl hid

theorem searchPairs_eq_some (basis : List (List Int)) (n : Nat) :
    ∀ (l : List (Nat × Nat)) (v : List Int), searchPairs basis n l = some v →
      ∃ l1 q l2, l = l1 ++ q :: l2 ∧ v = pairSum basis q.1 q.2 ∧
        detOK n v = true ∧ ∀ q2 ∈ l1, detOK n (pairSum basis q2.1 q2.2) = false := by
  intro l
  induction l with
  | nil => intro v h; exact absurd h (by simp [searchPairs])
  | cons hd tl ih =>
    intro v h
    obtain ⟨i, j⟩ := hd
    by_cases hc : detOK n (pairSum basis i j) = true
    · simp only [searchPairs, hc, if_true] at h
      obtain rfl := Option.some.inj h
      exact ⟨[], (i, j), tl, rfl, rfl, hc, by simp⟩
    · simp only [searchPairs] at h
      rw [if_neg hc] at h
      obtain ⟨l1, q, l2, rfl, hv, hq, hfail⟩ := ih v h
      refine ⟨(i, j) :: l1, q, l2, rfl, hv, hq, ?_⟩
      intro q2 hq2
      rcases List.mem_cons.mp hq2 with rfl | hmem
      · revert hc
        cases detOK n (pairSum basis i j) <;> simp
      · exact hfail q2 hmem

/-- C3: the searcher enumerates only mod-2 sums of two distinct basis rows in
pair-index lexicographic order (`i` ascending, then `j < i` ascending) and
returns the first sum passing the determinant check for all `n` qubit
indices; when the basis has fewer than two rows it returns `none` (there are
no pairs to try).  Every returned vector is the sum of a pair `(i, j)` with
`j < i < d` — never a single basis vector nor a combination of three or more
— and every lexicographically earlier pair fails the check. -/
theorem search_nullspace_first_pair (basis : List (List Int)) (n : Nat)
    (hw : ∀ r ∈ basis, r.length = 4 * n) :
    (basis.length < 2 → search_nullspace basis = none) ∧
    (∀ v, search_nullspace basis = some v →
      ∃ i j, j < i ∧ i < basis.length ∧ v = pairSum basis i j ∧ detOK n v = true ∧
        ∀ i2 j2, j2 < i2 → (i2 < i ∨ (i2 = i ∧ j2 < j)) →
          detOK n (pairSum basis i2 j2) = false) := by
  constructor
  · intro hlen
    rcases basis with _ | ⟨r, _ | ⟨r2, rest⟩⟩
    · rfl
    · rfl
    · simp only [List.length_cons] at hlen
      omega
  · intro v h
    rcases basis with _ | ⟨r0, rest⟩
    · exact absurd h (by simp [search_nullspace, lc_pairs, searchPairs])
    · have hn0 : ((r0 :: rest).headD []).length / 4 = n := by
        have h4 : r0.length = 4 * n := hw r0 (by simp)
        simp [h4, Nat.mul_div_cancel_left n (by norm_num : 0 < 4)]
      rw [search_nullspace, hn0] at h
      obtain ⟨l1, q, l2, hsplit, hv, hq, hfail⟩ := searchPairs_eq_some _ _ _ _ h
      obtain ⟨i, j⟩ := q
      have hmem : (i, j) ∈ lc_pairs (r0 :: rest).length := by
        rw [hsplit]
        exact List.mem_append_right _ (List.mem_cons_self _ _)
      obtain ⟨hji, hid⟩ := (mem_lc_pairs _ i j).mp hmem
      refine ⟨i, j, hji, hid, hv, hq, ?_⟩
      intro i2 j2 hj2 hlex
      have hpw : List.Pairwise pairLexLt (l1 ++ (i, j) :: l2) := by
        rw [← hsplit]
        exact pairwise_lc_pairs _
      have hmem2 : (i2, j2) ∈ l1 ++ (i, j) :: l2 := by
        rw [← hsplit]
        apply (mem_lc_pairs _ i2 j2).mpr
        refine ⟨hj2, ?_⟩
        rcases hlex with h1 | ⟨rfl, _⟩
        · omega
        · exact hid
      rcases List.mem_append.mp hmem2 with hin1 | hin2
      · exact hfail (i2, j2) hin1
      · exfalso
        rcases List.mem_cons.mp hin2 with heq | hin2'
        · have h1 : i2 = i := congrArg Prod.fst heq
          have h2 : j2 = j := congrArg Prod.snd heq
          rcases hlex with h3 | ⟨h4, h5⟩ <;> omega
        · have hpw2 : List.Pairwise pairLexLt ((i, j) :: l2) :=
            (List.pairwise_append.mp hpw).2.1
          have hrel : pairLexLt (i, j) (i2, j2) :=
            (List.pairwise_cons.mp hpw2).1 _ hin2'
          simp only [pairLexLt] at hrel
          rcases hrel with h1 | ⟨h2, h3⟩ <;> rcases hlex with h4 | ⟨h5, h6⟩ <;> omega

/-- Witness for C3: a two-row basis of width 4 (`n = 1`); the theorem's
hypotheses hold and its conclusions are produced at this concrete input. -/
theorem search_nullspace_first_pair_witness :
    (∀ r ∈ [[1, 0, 0, 0], [0, 0, 0, 1]], List.length r = 4 * 1) ∧
    (([[1, 0, 0, 0], [0, 0, 0, 1]] : List (List Int)).length < 2 →
      search_nullspace [[1, 0, 0, 0], [0, 0, 0, 1]] = none) ∧
    (∀ v, search_nullspace [[1, 0, 0, 0], [0, 0, 0, 1]] = some v →
      ∃ i j, j < i ∧ i < ([[1, 0, 0, 0], [0, 0, 0, 1]] : List (List Int)).length ∧
        v = pairSum [[1, 0, 0, 0], [0, 0, 0, 1]] i j ∧ detOK 1 v = true ∧
        ∀ i2 j2, j2 < i2 → (i2 < i ∨ (i2 = i ∧ j2 < j)) →
          detOK 1 (pairSum [[1, 0, 0, 0], [0, 0, 0, 1]] i2 j2) = false) :=
  ⟨by decide,
   (search_nullspace_first_pair [[1, 0, 0, 0], [0, 0, 0, 1]] 1 (by decide)).1,
   (search_nullspace_first_pair [[1, 0, 0, 0], [0, 0, 0, 1]] 1 (by decide)).2⟩

/-- C4: whenever the searcher returns a solution vector `sol` (rather than
`None`), every qubit index `k < n` satisfies the GF(2) determinant condition
`(sol[k] * sol[k + 3n] + sol[k + n] * sol[k + 2n]) % 2 = 1` exactly: the
searcher only accepts a candidate after the check of lines 232-240 passes at
every index. -/
theorem search_nullspace_det_constraint (basis : List (List Int)) (n : Nat)
    (hw : ∀ r ∈ basis, r.length = 4 * n) (v : List Int)
    (hv : search_nullspace basis = some v) :
    ∀ k, k < n →
      (v.getD k 0 * v.getD (k + 3 * n) 0 +
        v.getD (k + n) 0 * v.getD (k + 2 * n) 0) % 2 = 1 := by
  rcases basis with _ | ⟨r0, rest⟩
  · exact absurd hv (by simp [search_nullspace, lc_pairs, searchPairs])
  · have hn0 : ((r0 :: rest).headD []).length / 4 = n := by
      have h4 : r0.length = 4 * n := hw r0 (by simp)
      simp [h4, Nat.mul_div_cancel_left n (by norm_num : 0 < 4)]
    rw [search_nullspace, hn0] at hv
    obtain ⟨l1, q, l2, hsplit, hvv, hq, hfail⟩ := searchPairs_eq_some _ _ _ _ hv
    intro k hk
    have hall := List.all_eq_true.mp hq k (List.mem_range.mpr hk)
    simpa using hall

/-- Witness for C4: on the two-row basis of width 4 the searcher returns
`[1, 0, 0, 1]`, which satisfies the determinant condition at its single
qubit index. -/
theorem search_nullspace_det_constraint_witness :
    (∀ r ∈ [[1, 0, 0, 0], [0, 0, 0, 1]], List.length r = 4 * 1) ∧
    search_nullspace [[1, 0, 0, 0], [0, 0, 0, 1]] = some [1, 0, 0, 1] ∧
    (∀ k, k < 1 →
      (([1, 0, 0, 1] : List Int).getD k 0 * ([1, 0, 0, 1] : List Int).getD (k + 3 * 1) 0 +
        ([1, 0, 0, 1] : List Int).getD (k + 1) 0 *
          ([1, 0, 0, 1] : List Int).getD (k + 2 * 1) 0) % 2 = 1) :=
  ⟨by decide, rfl,
   search_nullspace_det_constraint [[1, 0, 0, 0], [0, 0, 0, 1]] 1 (by decide)
     [1, 0, 0, 1] rfl⟩

/-! ## C9: the constraint builder -/

theorem getD_flatMap_uniform (l : List Nat) (f : Nat → List (List Int)) (m : Nat)
    (h : ∀ a ∈ l, (f a).length = m) :
    ∀ (jj kk : Nat), jj < l.length → kk < m →
      (l.flatMap f).getD (jj * m + kk) [] = (f (l.getD jj 0)).getD kk [] := by
  induction l with
  | nil => intro jj kk hj _; cases hj
  | cons a tl ih =>
    intro jj kk hj hk
    cases jj with
    | zero =>
      rw [List.flatMap_cons, Nat.zero_mul, Nat.zero_add,
        getD_append_lt _ _ _ _ (by rw [h a (by simp)]; exact hk)]
      rfl
    | succ jj2 =>
      have hlen : (f a).length = m := h a (by simp)
      have harith : (jj2 + 1) * m + kk = (jj2 * m + kk) + m := by ring
      rw [List.flatMap_cons, getD_append_ge _ _ _ _ (by omega), hlen, harith,
        Nat.add_sub_cancel]
      have htl : jj2 < tl.length := by simpa using hj
      rw [ih (fun b hb => h b (by simp [hb])) jj2 kk htl hk]
      rfl

theorem length_flatMap_uniform (l : List Nat) (f : Nat → List (List Int)) (m : Nat)
    (h : ∀ a ∈ l, (f a).length = m) : (l.flatMap f).length = l.length * m := by
  induction l with
  | nil => simp
  | cons a tl ih =>
    rw [List.flatMap_cons, List.length_append, h a (by simp),
      ih (fun b hb => h b (by simp [hb])), List.length_cons]
    ring

theorem lc_constraint_row (G H : List (List Int)) (n j k : Nat)
    (hG : G.length = n) (hj : j < n) (hk : k < n) :
    (lc_constraint_system G H).getD (j * n + k) [] =
      (List.range n).map (fun i => if i = k then entry G j k else 0) ++
      (List.range n).map (fun i => if k = j ∧ i = j then 1 else 0) ++
      (List.range n).map (fun i => entry G i j * entry H i k) ++
      (List.range n).map (fun i => if i = j then entry H j k else 0) := by
  have hflat : lc_constraint_system G H =
      (List.range n).flatMap (fun j2 =>
        hstack2 (hstack2 (hstack2
          ((List.range n).map (fun k2 =>
            (List.range n).map (fun i => if i = k2 then entry G j2 k2 else 0)))
          ((List.range n).map (fun k2 =>
            (List.range n).map (fun i => if k2 = j2 ∧ i = j2 then 1 else 0))))
          ((List.range n).map (fun k2 =>
            (List.range n).map (fun i => entry G i j2 * entry H i k2))))
          ((List.range n).map (fun k2 =>
            (List.range n).map (fun i => if i = j2 then entry H j2 k2 else 0)))) := by
    simp only [lc_constraint_system, hG]
  rw [hflat]
  rw [getD_flatMap_uniform (List.range n) _ n
    (by intro a ha; simp [hstack2, List.length_zipWith]) j k (by simpa using hj) hk]
  rw [getD_range n j hj]
  simp only [hstack2]
  rw [getD_zipWith _ _ _ k []
        (by simp [List.length_zipWith] <;> omega) (by simp <;> omega),
      getD_zipWith _ _ _ k []
        (by simp [List.length_zipWith] <;> omega) (by simp <;> omega),
      getD_zipWith _ _ _ k [] (by simp <;> omega) (by simp <;> omega)]
  rw [getD_map _ _ k [] 0 (by simp <;> omega), getD_map _ _ k [] 0 (by simp <;> omega),
      getD_map _ _ k [] 0 (by simp <;> omega), getD_map _ _ k [] 0 (by simp <;> omega),
      getD_range n k hk]

/-- C9: for `n x n` adjacency matrices `G`, `H`, the constraint builder
returns an `n^2 x 4n` matrix of `n` stacked row blocks `[A|B|C|D]` indexed by
`j`, where row `k` of block `j` reads, per column group of width `n`:
`A[k][i] = G[j][k]` iff `i = k` (the diagonal of `G`'s row `j`),
`B[k][i] = 1` iff `k = j` and `i = j`, `C[k][i] = G[i][j] * H[i][k]`, and
`D[k][i] = H[j][k]` iff `i = j`. -/
theorem lc_constraint_system_blocks (G H : List (List Int)) (n : Nat)
    (hG : G.length = n) (hH : H.length = n) :
    (lc_constraint_system G H).length = n * n ∧
    (∀ r ∈ lc_constraint_system G H, r.length = 4 * n) ∧
    (∀ j k i, j < n → k < n → i < n →
      entry (lc_constraint_system G H) (j * n + k) i =
        (if i = k then entry G j k else 0) ∧
      entry (lc_constraint_system G H) (j * n + k) (n + i) =
        (if k = j ∧ i = j then 1 else 0) ∧
      entry (lc_constraint_system G H) (j * n + k) (2 * n + i) =
        entry G i j * entry H i k ∧
      entry (lc_constraint_system G H) (j * n + k) (3 * n + i) =
        (if i = j then entry H j k else 0)) := by
  have hblock : ∀ a ∈ List.range n,
      ((fun j2 => hstack2 (hstack2 (hstack2
        ((List.range n).map (fun k2 =>
          (List.range n).map (fun i => if i = k2 then entry G j2 k2 else 0)))
        ((List.range n).map (fun k2 =>
          (List.range n).map (fun i => if k2 = j2 ∧ i = j2 then 1 else 0))))
        ((List.range n).map (fun k2 =>
          (List.range n).map (fun i => entry G i j2 * entry H i k2))))
        ((List.range n).map (fun k2 =>
          (List.range n).map (fun i => if i = j2 then entry H j2 k2 else 0)))) a).length
        = n := by
    intro a ha
    simp [hstack2, List.length_zipWith]
  have hflat : lc_constraint_system G H =
      (List.range n).flatMap (fun j2 =>
        hstack2 (hstack2 (hstack2
          ((List.range n).map (fun k2 =>
            (List.range n).map (fun i => if i = k2 then entry G j2 k2 else 0)))
          ((List.range n).map (fun k2 =>
            (List.range n).map (fun i => if k2 = j2 ∧ i = j2 then 1 else 0))))
          ((List.range n).map (fun k2 =>
            (List.range n).map (fun i => entry G i j2 * entry H i k2))))
          ((List.range n).map (fun k2 =>
            (List.range n).map (fun i => if i = j2 then entry H j2 k2 else 0)))) := by
    simp only [lc_constraint_system, hG]
  refine ⟨?_, ?_, ?_⟩
  · rw [hflat, length_flatMap_uniform _ _ n hblock, List.length_range]
  · intro r hr
    rw [hflat] at hr
    obtain ⟨a, ha, hr2⟩ := List.mem_flatMap.mp hr
    obtain ⟨kk, hkk, rfl⟩ := List.mem_iff_getElem.mp hr2
    have hkk2 : kk < n := by
      have := hblock a ha
      simp only [this] at hkk
      simpa using hkk
    rw [← getD_lt _ kk []]
    simp only [hstack2]
    rw [getD_zipWith _ _ _ kk []
          (by simp [List.length_zipWith] <;> omega) (by simp <;> omega),
        getD_zipWith _ _ _ kk []
          (by simp [List.length_zipWith] <;> omega) (by simp <;> omega),
        getD_zipWith _ _ _ kk [] (by simp <;> omega) (by simp <;> omega)]
    rw [getD_map _ _ kk [] 0 (by simp <;> omega), getD_map _ _ kk [] 0 (by simp <;> omega),
        getD_map _ _ kk [] 0 (by simp <;> omega), getD_map _ _ kk [] 0 (by simp <;> omega)]
    simp only [List.length_append, List.length_map, List.length_range]
    ring
  · intro j k i hj hk hi
    have hrow := lc_constraint_row G H n j k hG hj hk
    have hlenA : ((List.range n).map
        (fun i => if i = k then entry G j k else 0)).length = n := by simp
    have hlenB : ((List.range n).map
        (fun i => if (k = j ∧ i = j : Prop) then (1 : Int) else 0)).length = n := by simp
    have hlenC : ((List.range n).map
        (fun i => entry G i j * entry H i k)).length = n := by simp
    refine ⟨?_, ?_, ?_, ?_⟩
    · rw [entry, hrow,
        getD_append_lt _ _ _ _ (by simp <;> omega),
        getD_append_lt _ _ _ _ (by simp <;> omega),
        getD_append_lt _ _ _ _ (by simp <;> omega),
        getD_map _ _ i 0 0 (by simp <;> omega), getD_range n i hi]
    · rw [entry, hrow,
        getD_append_lt _ _ _ _ (by simp <;> omega),
        getD_append_lt _ _ _ _ (by simp <;> omega),
        getD_append_ge _ _ _ _ (by simp <;> omega)]
      rw [hlenA]
      rw [show n + i - n = i by omega]
      rw [getD_map _ _ i 0 0 (by simp <;> omega), getD_range n i hi]
    · rw [entry, hrow,
        getD_append_lt _ _ _ _ (by simp <;> omega),
        getD_append_ge _ _ _ _ (by simp <;> omega)]
      simp only [List.length_append, hlenA, hlenB]
      rw [show 2 * n + i - (n + n) = i by omega]
      rw [getD_map _ _ i 0 0 (by simp <;> omega), getD_range n i hi]
    · rw [entry, hrow,
        getD_append_ge _ _ _ _ (by simp <;> omega)]
      simp only [List.length_append, hlenA, hlenB, hlenC]
      rw [show 3 * n + i - (n + n + n) = i by omega]
      rw [getD_map _ _ i 0 0 (by simp <;> omega), getD_range n i hi]

/-- Witness for C9: the constraint matrix of the single-edge graphs
`G = H = [[0, 1], [1, 0]]` (`n = 2`) has the stated shape and block
entries. -/
theorem lc_constraint_system_blocks_witness :
    ([[0, 1], [1, 0]] : List (List Int)).length = 2 ∧
    (lc_constraint_system [[0, 1], [1, 0]] [[0, 1], [1, 0]]).length = 2 * 2 ∧
    (∀ r ∈ lc_constraint_system [[0, 1], [1, 0]] [[0, 1], [1, 0]], r.length = 4 * 2) ∧
    (∀ j k i, j < 2 → k < 2 → i < 2 →
      entry (lc_constraint_system [[0, 1], [1, 0]] [[0, 1], [1, 0]]) (j * 2 + k) i =
        (if i = k then entry [[0, 1], [1, 0]] j k else 0) ∧
      entry (lc_constraint_system [[0, 1], [1, 0]] [[0, 1], [1, 0]]) (j * 2 + k) (2 + i) =
        (if k = j ∧ i = j then 1 else 0) ∧
      entry (lc_constraint_system [[0, 1], [1, 0]] [[0, 1], [1, 0]]) (j * 2 + k) (2 * 2 + i) =
        entry [[0, 1], [1, 0]] i j * entry [[0, 1], [1, 0]] i k ∧
      entry (lc_constraint_system [[0, 1], [1, 0]] [[0, 1], [1, 0]]) (j * 2 + k) (3 * 2 + i) =
        (if i = j then entry [[0, 1], [1, 0]] j k else 0)) :=
  ⟨rfl,
   (lc_constraint_system_blocks [[0, 1], [1, 0]] [[0, 1], [1, 0]] 2 rfl rfl).1,
   (lc_constraint_system_blocks [[0, 1], [1, 0]] [[0, 1], [1, 0]] 2 rfl rfl).2.1,
   (lc_constraint_system_blocks [[0, 1], [1, 0]] [[0, 1], [1, 0]] 2 rfl rfl).2.2⟩

/-! ## C10: consistency of the two Clifford decoders -/

theorem clifford_global_unfold (vec : List Int) (n : Nat) (hlen : vec.length = 4 * n) :
    clifford_vec_to_global vec =
      hstack2
        ((List.range n).map (fun r =>
          (List.range n).map (fun c => if c = r then vec.getD (r + 0 * n) 0 else 0)))
        ((List.range n).map (fun r =>
          (List.range n).map (fun c => if c = r then vec.getD (r + 1 * n) 0 else 0))) ++
      hstack2
        ((List.range n).map (fun r =>
          (List.range n).map (fun c => if c = r then vec.getD (r + 2 * n) 0 else 0)))
        ((List.range n).map (fun r =>
          (List.range n).map (fun c => if c = r then vec.getD (r + 3 * n) 0 else 0))) := by
  have hn4 : vec.length / 4 = n := by
    rw [hlen]; exact Nat.mul_div_cancel_left n (by norm_num)
  simp only [clifford_vec_to_global, hn4]

theorem clifford_tensor_row (vec : List Int) (n : Nat) (hlen : vec.length = 4 * n)
    (k : Nat) (hk : k < n) :
    (clifford_vec_to_tensors vec).getD k [] =
      [[vec.getD k 0, vec.getD (k + n) 0],
       [vec.getD (k + 2 * n) 0, vec.getD (k + 3 * n) 0]] := by
  have hn4 : vec.length / 4 = n := by
    rw [hlen]; exact Nat.mul_div_cancel_left n (by norm_num)
  simp only [clifford_vec_to_tensors, hn4]
  rw [getD_map _ _ k [] 0 (by simp <;> omega), getD_range n k hk]

theorem clifford_global_entries (vec : List Int) (n : Nat) (hlen : vec.length = 4 * n)
    (r c : Nat) (hr : r < n) (hc : c < n) :
    entry (clifford_vec_to_global vec) r c = (if c = r then vec.getD r 0 else 0) ∧
    entry (clifford_vec_to_global vec) r (n + c) =
      (if c = r then vec.getD (r + n) 0 else 0) ∧
    entry (clifford_vec_to_global vec) (n + r) c =
      (if c = r then vec.getD (r + 2 * n) 0 else 0) ∧
    entry (clifford_vec_to_global vec) (n + r) (n + c) =
      (if c = r then vec.getD (r + 3 * n) 0 else 0) := by
  rw [entry, entry, entry, entry, clifford_global_unfold vec n hlen]
  simp only [hstack2]
  refine ⟨?_, ?_, ?_, ?_⟩
  · rw [getD_append_lt _ _ _ _ (by simp [List.length_zipWith] <;> omega),
      getD_zipWith _ _ _ r [] (by simp <;> omega) (by simp <;> omega),
      getD_map _ _ r [] 0 (by simp <;> omega), getD_range n r hr,
      getD_append_lt _ _ _ _ (by simp <;> omega),
      getD_map _ _ c 0 0 (by simp <;> omega), getD_range n c hc]
    simp
  · rw [getD_append_lt _ _ _ _ (by simp [List.length_zipWith] <;> omega),
      getD_zipWith _ _ _ r [] (by simp <;> omega) (by simp <;> omega),
      getD_map _ _ r [] 0 (by simp <;> omega),
      getD_map _ _ r [] 0 (by simp <;> omega), getD_range n r hr,
      getD_append_ge _ _ _ _ (by simp <;> omega)]
    rw [show (n + c) - ((List.range n).map
      (fun c => if c = r then vec.getD (r + 0 * n) 0 else 0)).length = c by simp <;> omega]
    rw [getD_map _ _ c 0 0 (by simp <;> omega), getD_range n c hc]
    simp
  · rw [getD_append_ge _ _ _ _ (by simp [List.length_zipWith] <;> omega)]
    rw [show (n + r) - (List.zipWith (· ++ ·)
      ((List.range n).map (fun r =>
        (List.range n).map (fun c => if c = r then vec.getD (r + 0 * n) 0 else 0)))
      ((List.range n).map (fun r =>
        (List.range n).map (fun c => if c = r then vec.getD (r + 1 * n) 0 else 0)))).length = r
      by simp [List.length_zipWith] <;> omega]
    rw [getD_zipWith _ _ _ r [] (by simp <;> omega) (by simp <;> omega),
      getD_map _ _ r [] 0 (by simp <;> omega), getD_range n r hr,
      getD_append_lt _ _ _ _ (by simp <;> omega),
      getD_map _ _ c 0 0 (by simp <;> omega), getD_range n c hc]
  · rw [getD_append_ge _ _ _ _ (by simp [List.length_zipWith] <;> omega)]
    rw [show (n + r) - (List.zipWith (· ++ ·)
      ((List.range n).map (fun r =>
        (List.range n).map (fun c => if c = r then vec.getD (r + 0 * n) 0 else 0)))
      ((List.range n).map (fun r =>
        (List.range n).map (fun c => if c = r then vec.getD (r + 1 * n) 0 else 0)))).length = r
      by simp [List.length_zipWith] <;> omega]
    rw [getD_zipWith _ _ _ r [] (by simp <;> omega) (by simp <;> omega),
      getD_map _ _ r [] 0 (by simp <;> omega),
      getD_map _ _ r [] 0 (by simp <;> omega), getD_range n r hr,
      getD_append_ge _ _ _ _ (by simp <;> omega)]
    rw [show (n + c) - ((List.range n).map
      (fun c => if c = r then vec.getD (r + 2 * n) 0 else 0)).length = c by simp <;> omega]
    rw [getD_map _ _ c 0 0 (by simp <;> omega), getD_range n c hc]

/-- C10: decoding a length-`4n` solution vector in both forms is consistent:
the global-form `2n x 2n` matrix is exactly the block assembly
`[[diag(a), diag(b)], [diag(c), diag(d)]]` of the same entries that the
tensor form places in its `k`-th `2 x 2` block `[[a_k, b_k], [c_k, d_k]]`:
for every `k < n`, `global[k, k] = tensor_k[0, 0]`,
`global[k, k + n] = tensor_k[0, 1]`, `global[k + n, k] = tensor_k[1, 0]` and
`global[k + n, k + n] = tensor_k[1, 1]`, while all other entries of each
`n x n` quadrant vanish. -/
theorem clifford_decoders_consistent (vec : List Int) (n : Nat)
    (hlen : vec.length = 4 * n) :
    (clifford_vec_to_global vec).length = 2 * n ∧
    (∀ r ∈ clifford_vec_to_global vec, r.length = 2 * n) ∧
    (∀ r c, r < n → c < n → c ≠ r →
      entry (clifford_vec_to_global vec) r c = 0 ∧
      entry (clifford_vec_to_global vec) r (n + c) = 0 ∧
      entry (clifford_vec_to_global vec) (n + r) c = 0 ∧
      entry (clifford_vec_to_global vec) (n + r) (n + c) = 0) ∧
    (∀ k, k < n →
      entry (clifford_vec_to_global vec) k k =
        entry ((clifford_vec_to_tensors vec).getD k []) 0 0 ∧
      entry (clifford_vec_to_global vec) k (n + k) =
        entry ((clifford_vec_to_tensors vec).getD k []) 0 1 ∧
      entry (clifford_vec_to_global vec) (n + k) k =
        entry ((clifford_vec_to_tensors vec).getD k []) 1 0 ∧
      entry (clifford_vec_to_global vec) (n + k) (n + k) =
        entry ((clifford_vec_to_tensors vec).getD k []) 1 1) := by
  refine ⟨?_, ?_, ?_, ?_⟩
  · rw [clifford_global_unfold vec n hlen]
    simp [hstack2, List.length_zipWith]
    ring
  · intro r hr
    rw [clifford_global_unfold vec n hlen] at hr
    rcases List.mem_append.mp hr with hr2 | hr2 <;>
    · simp only [hstack2] at hr2
      obtain ⟨kk, hkk, rfl⟩ := List.mem_iff_getElem.mp hr2
      have hkk2 : kk < n := by
        simp only [List.length_zipWith, List.length_map, List.length_range] at hkk
        omega
      rw [← getD_lt _ kk [],
        getD_zipWith _ _ _ kk [] (by simp <;> omega) (by simp <;> omega),
        getD_map _ _ kk [] 0 (by simp <;> omega),
        getD_map _ _ kk [] 0 (by simp <;> omega)]
      simp
      ring
  · intro r c hr hc hne
    obtain ⟨h1, h2, h3, h4⟩ := clifford_global_entries vec n hlen r c hr hc
    rw [h1, h2, h3, h4]
    simp [hne]
  · intro k hk
    obtain ⟨h1, h2, h3, h4⟩ := clifford_global_entries vec n hlen k k hk hk
    rw [h1, h2, h3, h4, clifford_tensor_row vec n hlen k hk]
    simp [entry]

/-- Witness for C10: the vector `[1, 2, 3, 4, 5, 6, 7, 8]` (`n = 2`,
blocks `a = (1, 2)`, `b = (3, 4)`, `c = (5, 6)`, `d = (7, 8)`). -/
theorem clifford_decoders_consistent_witness :
    ([1, 2, 3, 4, 5, 6, 7, 8] : List Int).length = 4 * 2 ∧
    (∀ k, k < 2 →
      entry (clifford_vec_to_global [1, 2, 3, 4, 5, 6, 7, 8]) k k =
        entry ((clifford_vec_to_tensors [1, 2, 3, 4, 5, 6, 7, 8]).getD k []) 0 0 ∧
      entry (clifford_vec_to_global [1, 2, 3, 4, 5, 6, 7, 8]) k (2 + k) =
        entry ((clifford_vec_to_tensors [1, 2, 3, 4, 5, 6, 7, 8]).getD k []) 0 1 ∧
      entry (clifford_vec_to_global [1, 2, 3, 4, 5, 6, 7, 8]) (2 + k) k =
        entry ((clifford_vec_to_tensors [1, 2, 3, 4, 5, 6, 7, 8]).getD k []) 1 0 ∧
      entry (clifford_vec_to_global [1, 2, 3, 4, 5, 6, 7, 8]) (2 + k) (2 + k) =
        entry ((clifford_vec_to_tensors [1, 2, 3, 4, 5, 6, 7, 8]).getD k []) 1 1) :=
  ⟨rfl, (clifford_decoders_consistent [1, 2, 3, 4, 5, 6, 7, 8] 2 rfl).2.2.2⟩

/-! ## C7: idempotence of `reduce_RREform_mod2`

The proof has two halves.  `rre_loop_run` shows that a run of the column loop
on a binary rectangular matrix produces a matrix whose pivot columns are
settled unit columns (`UnitCol`) and whose remaining scanned columns are zero
at and below the pivot row reached when they were scanned, packaged as a
`ColsOK` certificate; `rre_loop_fix` shows that the loop leaves any matrix
carrying such a certificate untouched. -/

theorem getD_drop {α : Type} (l : List α) (m i : Nat) (d : α) :
    (l.drop m).getD i d = l.getD (m + i) d := by
  induction l generalizing m with
  | nil => simp
  | cons a tl ih =>
    cases m with
    | zero => simp
    | succ m2 =>
      rw [List.drop_succ_cons, ih m2,
        show m2 + 1 + i = (m2 + i) + 1 from by omega, List.getD_cons_succ]

theorem lt_of_entry_ne_zero (R : List (List Int)) (t j : Nat) (h : entry R t j ≠ 0) :
    t < R.length ∧ j < (R.getD t []).length := by
  constructor
  · by_contra hle
    exact h (by rw [entry, getD_oob R t [] (by omega)]; rfl)
  · by_contra hle
    exact h (by rw [entry, getD_oob _ j 0 (by omega)])

theorem findPivotAux_none_iff (j : Nat) (rows : List (List Int)) :
    findPivotAux j rows = none ↔
      ∀ m, m < rows.length → (rows.getD m []).getD j 0 = 0 := by
  induction rows with
  | nil => simp [findPivotAux]
  | cons r rs ih =>
    constructor
    · intro h m hm
      rw [findPivotAux] at h
      by_cases hr : r.getD j 0 ≠ 0
      · rw [if_pos hr] at h; cases h
      · rw [if_neg hr] at h
        cases m with
        | zero => simpa using hr
        | succ m2 =>
          have : findPivotAux j rs = none := by
            cases hfa : findPivotAux j rs with
            | none => rfl
            | some o => rw [hfa] at h; cases h
          exact ih.mp this m2 (by simpa using hm)
    · intro h
      rw [findPivotAux]
      have hr : ¬ r.getD j 0 ≠ 0 := by
        have := h 0 (by simp)
        simpa using this
      rw [if_neg hr, ih.mpr (fun m hm => h (m + 1) (by simpa using hm))]
      rfl

theorem findPivotAux_some (j : Nat) (rows : List (List Int)) (off : Nat)
    (h : findPivotAux j rows = some off) :
    off < rows.length ∧ (rows.getD off []).getD j 0 ≠ 0 := by
  induction rows generalizing off with
  | nil => cases h
  | cons r rs ih =>
    rw [findPivotAux] at h
    by_cases hr : r.getD j 0 ≠ 0
    · rw [if_pos hr] at h
      obtain rfl := Option.some.inj h
      exact ⟨by simp, by simpa using hr⟩
    · rw [if_neg hr] at h
      cases hfa : findPivotAux j rs with
      | none => rw [hfa] at h; cases h
      | some o =>
        rw [hfa] at h
        obtain rfl := Option.some.inj h.symm
        obtain ⟨ho1, ho2⟩ := ih o hfa
        exact ⟨by simpa using ho1, by simpa using ho2⟩

theorem findPivot_none_iff (R : List (List Int)) (p j : Nat) :
    findPivot R p j = none ↔ ZeroFromRow R p j := by
  rw [findPivot, Option.map_eq_none', findPivotAux_none_iff, ZeroFromRow]
  constructor
  · intro h k hk1 hk2
    have h2 := h (k - p) (by rw [List.length_drop]; omega)
    rw [getD_drop, show p + (k - p) = k from by omega] at h2
    exact h2
  · intro h m hm
    rw [List.length_drop] at hm
    rw [getD_drop]
    exact h (p + m) (by omega) (by omega)

theorem findPivot_some (R : List (List Int)) (p j i : Nat)
    (h : findPivot R p j = some i) :
    p ≤ i ∧ i < R.length ∧ entry R i j ≠ 0 := by
  rw [findPivot] at h
  cases hfa : findPivotAux j (R.drop p) with
  | none => rw [hfa] at h; cases h
  | some off =>
    rw [hfa] at h
    simp only [Option.map_some'] at h
    obtain rfl := Option.some.inj h
    obtain ⟨ho1, ho2⟩ := findPivotAux_some j (R.drop p) off hfa
    rw [List.length_drop] at ho1
    rw [getD_drop] at ho2
    exact ⟨by omega, by omega, ho2⟩

theorem findPivot_self (R : List (List Int)) (p j : Nat) (h : entry R p j ≠ 0) :
    findPivot R p j = some p := by
  have hp : p < R.length := (lt_of_entry_ne_zero R p j h).1
  have h2 : (R.getD p []).getD j 0 ≠ 0 := h
  rw [getD_lt R p [] hp] at h2
  rw [findPivot, List.drop_eq_getElem_cons hp, findPivotAux, if_pos h2]
  rfl

theorem length_swapRows (R : List (List Int)) (p i : Nat) :
    (swapRows R p i).length = R.length := by
  simp [swapRows]

theorem getD_swapRows (R : List (List Int)) (p i k : Nat)
    (hp : p < R.length) (hi : i < R.length) :
    (swapRows R p i).getD k [] =
      if k = i then R.getD p [] else if k = p then R.getD i [] else R.getD k [] := by
  rw [swapRows]
  by_cases hki : k = i
  · subst hki
    rw [if_pos rfl, getD_set_self _ _ _ _ (by simp [hi])]
  · rw [if_neg hki, getD_set_ne _ _ _ _ _ hki]
    by_cases hkp : k = p
    · subst hkp
      rw [if_pos rfl, getD_set_self _ _ _ _ hp]
    · rw [if_neg hkp, getD_set_ne _ _ _ _ _ hkp]

theorem swapRows_self (R : List (List Int)) (p : Nat) (hp : p < R.length) :
    swapRows R p p = R := by
  rw [swapRows, List.set_set, set_getD_self R p [] hp]

theorem normalizeRow_of_pivot_one (R : List (List Int)) (p j : Nat)
    (hp : p < R.length) (h1 : entry R p j = 1) :
    normalizeRow R p j = R := by
  have hdiv : (R.getD p []).getD j 0 = 1 := h1
  rw [normalizeRow, hdiv]
  have hmap : (R.getD p []).map (fun x => x / 1) = R.getD p [] := by
    simp
  rw [hmap, set_getD_self R p [] hp]

theorem length_eliminateAux (pr : List Int) (j p : Nat) :
    ∀ (k0 : Nat) (rows : List (List Int)),
      (eliminateAux pr j p k0 rows).length = rows.length := by
  intro k0 rows
  induction rows generalizing k0 with
  | nil => rfl
  | cons r rs ih => simp [eliminateAux, ih]

theorem getD_eliminateAux (pr : List Int) (j p : Nat) :
    ∀ (k0 : Nat) (rows : List (List Int)) (m : Nat), m < rows.length →
      (eliminateAux pr j p k0 rows).getD m [] =
        (if k0 + m = p ∨ (rows.getD m []).getD j 0 = 0 then rows.getD m []
         else elimRow pr ((rows.getD m []).getD j 0) (rows.getD m [])) := by
  intro k0 rows
  induction rows generalizing k0 with
  | nil => intro m hm; cases hm
  | cons r rs ih =>
    intro m hm
    cases m with
    | zero =>
      simp only [eliminateAux, List.getD_cons_zero, Nat.add_zero]
    | succ m2 =>
      simp only [eliminateAux, List.getD_cons_succ]
      rw [ih (k0 + 1) m2 (by simpa using hm)]
      rw [show k0 + 1 + m2 = k0 + (m2 + 1) from by omega]

theorem length_eliminate (R : List (List Int)) (p j : Nat) :
    (eliminate R p j).length = R.length :=
  length_eliminateAux _ _ _ _ _

theorem getD_eliminate (R : List (List Int)) (p j k : Nat) (hk : k < R.length) :
    (eliminate R p j).getD k [] =
      (if k = p ∨ entry R k j = 0 then R.getD k []
       else elimRow (R.getD p []) (entry R k j) (R.getD k [])) := by
  rw [eliminate, getD_eliminateAux _ _ _ 0 R k hk]
  simp only [Nat.zero_add]
  rfl

theorem eliminate_noop (R : List (List Int)) (p j : Nat)
    (h : ∀ k, k < R.length → k ≠ p → entry R k j = 0) : eliminate R p j = R := by
  have haux : ∀ (k0 : Nat) (rows : List (List Int)),
      (∀ m, m < rows.length → (k0 + m = p ∨ (rows.getD m []).getD j 0 = 0)) →
        eliminateAux (R.getD p []) j p k0 rows = rows := by
    intro k0 rows
    induction rows generalizing k0 with
    | nil => intro _; rfl
    | cons r rs ih =>
      intro hcond
      rw [eliminateAux, if_pos (by simpa using hcond 0 (by simp))]
      rw [ih (k0 + 1) (fun m hm => by
        have := hcond (m + 1) (by simpa using hm)
        rcases this with h1 | h2
        · exact Or.inl (by omega)
        · exact Or.inr (by simpa using h2))]
  rw [eliminate]
  apply haux
  intro m hm
  by_cases hmp : m = p
  · exact Or.inl (by omega)
  · exact Or.inr (h m hm hmp)

theorem length_elimRow (pr : List Int) (c : Int) (r : List Int) :
    (elimRow pr c r).length = min r.length pr.length := by
  simp [elimRow, List.length_zipWith]

theorem getD_elimRow (pr : List Int) (c : Int) (r : List Int) (jj : Nat)
    (h1 : jj < r.length) (h2 : jj < pr.length) :
    (elimRow pr c r).getD jj 0 = (r.getD jj 0 - c * pr.getD jj 0) % 2 := by
  rw [elimRow, getD_zipWith _ _ _ _ _ h1 h2]

theorem rre_loop_nil (R : List (List Int)) (t : Nat) : rre_loop [] R t = (R, t) := rfl

theorem rre_loop_cons_none (c : Nat) (rest : List Nat) (R : List (List Int)) (t : Nat)
    (h : findPivot R t c = none) : rre_loop (c :: rest) R t = rre_loop rest R t := by
  rw [rre_loop, h]

theorem rre_loop_cons_some (c : Nat) (rest : List Nat) (R : List (List Int)) (t i : Nat)
    (h : findPivot R t c = some i) :
    rre_loop (c :: rest) R t =
      (if t + 1 = R.length
       then (eliminate (normalizeRow (swapRows R t i) t c) t c, t + 1)
       else rre_loop rest (eliminate (normalizeRow (swapRows R t i) t c) t c) (t + 1)) := by
  rw [rre_loop, h]

/-- A matrix carrying a `ColsOK` certificate is left untouched by the column
loop, which finds exactly the pivots recorded in the certificate. -/
theorem rre_loop_fix :
    ∀ (cols : List Nat) (R : List (List Int)) (t : Nat) (pv : List Nat),
      ColsOK R t pv cols → rre_loop cols R t = (R, t + pv.length) := by
  intro cols
  induction cols with
  | nil =>
    intro R t pv h
    cases h
    simp [rre_loop_nil]
  | cons c rest ih =>
    intro R t pv h
    match h with
    | ColsOK.skip _ _ _ _ _ hz hok =>
      rw [rre_loop_cons_none c rest R t ((findPivot_none_iff R t c).mpr hz)]
      exact ih R t pv hok
    | ColsOK.last _ _ _ _ hu hbreak =>
      have hne : entry R t c ≠ 0 := by rw [hu.1]; norm_num
      have ht : t < R.length := (lt_of_entry_ne_zero R t c hne).1
      rw [rre_loop_cons_some c rest R t t (findPivot_self R t c hne),
        swapRows_self R t ht, normalizeRow_of_pivot_one R t c ht hu.1,
        eliminate_noop R t c hu.2, if_pos hbreak]
      simp
    | ColsOK.cont _ _ _ pv2 _ hu hne2 hok =>
      have hne : entry R t c ≠ 0 := by rw [hu.1]; norm_num
      have ht : t < R.length := (lt_of_entry_ne_zero R t c hne).1
      rw [rre_loop_cons_some c rest R t t (findPivot_self R t c hne),
        swapRows_self R t ht, normalizeRow_of_pivot_one R t c ht hu.1,
        eliminate_noop R t c hu.2, if_neg hne2, ih R (t + 1) pv2 hok]
      rw [List.length_cons]
      congr 1
      omega

theorem entry_swap (R : List (List Int)) (t i k j : Nat)
    (ht : t < R.length) (hi : i < R.length) :
    entry (swapRows R t i) k j =
      if k = i then entry R t j else if k = t then entry R i j else entry R k j := by
  rw [entry, getD_swapRows R t i k ht hi]
  split_ifs <;> rfl

theorem BinE_of_Bin (M : List (List Int)) (h : Bin M) : BinE M := by
  intro k j
  by_cases hk : k < M.length
  · by_cases hj : j < (M.getD k []).length
    · have hr := h (M.getD k []) (getD_mem M k [] hk)
      exact hr _ (getD_mem _ j 0 hj)
    · rw [entry, getD_oob _ j 0 (by omega)]
      exact Or.inl rfl
  · rw [entry, getD_oob M k [] (by omega)]
    exact Or.inl rfl

/-- The main run lemma: on a rectangular binary matrix, the column loop
returns a pivot count `t + pv.length` for some list `pv` of pivot columns,
preserves the row count, the width and binariness, leaves every column that
was zero at and below row `t` pointwise unchanged, and produces a `ColsOK`
certificate for re-running the loop over the same columns. -/
theorem rre_loop_run :
    ∀ (cols : List Nat) (R : List (List Int)) (t w : Nat),
      (∀ k, k < R.length → (R.getD k []).length = w) → BinE R →
      ∃ pv : List Nat,
        (rre_loop cols R t).2 = t + pv.length ∧
        (rre_loop cols R t).1.length = R.length ∧
        (∀ k, k < (rre_loop cols R t).1.length →
          ((rre_loop cols R t).1.getD k []).length = w) ∧
        BinE (rre_loop cols R t).1 ∧
        (∀ j2, ZeroFromRow R t j2 →
          ∀ k, entry (rre_loop cols R t).1 k j2 = entry R k j2) ∧
        ColsOK (rre_loop cols R t).1 t pv cols := by
  intro cols
  induction cols with
  | nil =>
    intro R t w hw hb
    exact ⟨[], rfl, rfl, hw, hb, fun j2 _ k => rfl, ColsOK.nil _ _⟩
  | cons c rest ih =>
    intro R t w hw hb
    cases hfp : findPivot R t c with
    | none =>
      have hz : ZeroFromRow R t c := (findPivot_none_iff R t c).mp hfp
      have hstep : rre_loop (c :: rest) R t = rre_loop rest R t :=
        rre_loop_cons_none c rest R t hfp
      obtain ⟨pv, h1, h2, h3, h4, h5, h6⟩ := ih R t w hw hb
      refine ⟨pv, ?_, ?_, ?_, ?_, ?_, ?_⟩ <;> rw [hstep]
      · exact h1
      · exact h2
      · exact h3
      · exact h4
      · exact h5
      · refine ColsOK.skip _ _ _ _ _ ?_ h6
        intro k hk1 hk2
        rw [h5 c hz k]
        exact hz k hk1 (by rw [← h2]; exact hk2)
    | some i =>
      obtain ⟨hti, hiR, hne0⟩ := findPivot_some R t c i hfp
      have ht : t < R.length := Nat.lt_of_le_of_lt hti hiR
      have hR1len : (swapRows R t i).length = R.length := length_swapRows R t i
      have htR1 : t < (swapRows R t i).length := by rw [hR1len]; exact ht
      have hE1 : ∀ k j, entry (swapRows R t i) k j =
          if k = i then entry R t j else if k = t then entry R i j else entry R k j :=
        fun k j => entry_swap R t i k j ht hiR
      have hw1 : ∀ k, k < (swapRows R t i).length →
          ((swapRows R t i).getD k []).length = w := by
        intro k hk
        rw [getD_swapRows R t i k ht hiR]
        rw [hR1len] at hk
        split_ifs
        · exact hw t ht
        · exact hw i hiR
        · exact hw k hk
      have hb1 : BinE (swapRows R t i) := by
        intro k j
        rw [hE1 k j]
        split_ifs
        · exact hb t j
        · exact hb i j
        · exact hb k j
      have hpiv1 : entry (swapRows R t i) t c = 1 := by
        have h1 : entry (swapRows R t i) t c = entry R i c := by
          rw [hE1 t c]
          by_cases hti2 : t = i
          · rw [if_pos hti2, hti2]
          · rw [if_neg hti2, if_pos rfl]
        rw [h1]
        rcases hb i c with h0 | hone
        · exact absurd h0 hne0
        · exact hone
      have hnorm : normalizeRow (swapRows R t i) t c = swapRows R t i :=
        normalizeRow_of_pivot_one (swapRows R t i) t c htR1 hpiv1
      have hR3len : (eliminate (swapRows R t i) t c).length = R.length := by
        rw [length_eliminate, hR1len]
      have hstep : rre_loop (c :: rest) R t =
          (if t + 1 = R.length
           then (eliminate (swapRows R t i) t c, t + 1)
           else rre_loop rest (eliminate (swapRows R t i) t c) (t + 1)) := by
        rw [rre_loop_cons_some c rest R t i hfp, hnorm]
      have hw3 : ∀ k, k < (eliminate (swapRows R t i) t c).length →
          ((eliminate (swapRows R t i) t c).getD k []).length = w := by
        intro k hk
        rw [hR3len, ← hR1len] at hk
        rw [getD_eliminate (swapRows R t i) t c k hk]
        split
        · exact hw1 k hk
        · rw [length_elimRow, hw1 k hk, hw1 t htR1]
          simp
      have hb3 : BinE (eliminate (swapRows R t i) t c) := by
        intro k j
        by_cases hk : k < (swapRows R t i).length
        · rw [entry, getD_eliminate (swapRows R t i) t c k hk]
          split
          · exact hb1 k j
          · by_cases hj : j < w
            · rw [getD_elimRow _ _ _ j (by rw [hw1 k hk]; exact hj)
                (by rw [hw1 t htR1]; exact hj)]
              exact Int.emod_two_eq _
            · rw [getD_oob _ j 0
                (by rw [length_elimRow, hw1 k hk, hw1 t htR1]; simp <;> omega)]
              exact Or.inl rfl
        · rw [entry, getD_oob _ k [] (by rw [length_eliminate]; omega)]
          exact Or.inl rfl
      have hUnit : UnitCol (eliminate (swapRows R t i) t c) t c := by
        constructor
        · rw [entry, getD_eliminate (swapRows R t i) t c t htR1, if_pos (Or.inl rfl)]
          exact hpiv1
        · intro k hkR3 hkt
          rw [hR3len, ← hR1len] at hkR3
          rw [entry, getD_eliminate (swapRows R t i) t c k hkR3]
          by_cases hzero : entry (swapRows R t i) k c = 0
          · rw [if_pos (Or.inr hzero)]
            exact hzero
          · rw [if_neg (by push_neg; exact ⟨hkt, hzero⟩)]
            have hcw : c < ((swapRows R t i).getD k []).length :=
              (lt_of_entry_ne_zero (swapRows R t i) k c hzero).2
            have hcwt : c < ((swapRows R t i).getD t []).length :=
              (lt_of_entry_ne_zero (swapRows R t i) t c (by rw [hpiv1]; norm_num)).2
            rw [getD_elimRow _ _ _ c hcw hcwt]
            have hpr1 : ((swapRows R t i).getD t []).getD c 0 = 1 := hpiv1
            have hxx : ((swapRows R t i).getD k []).getD c 0 =
                entry (swapRows R t i) k c := rfl
            rw [hpr1, mul_one, hxx, sub_self]
            rfl
      have hpres : ∀ j2, ZeroFromRow R t j2 →
          ∀ k, entry (eliminate (swapRows R t i) t c) k j2 = entry R k j2 := by
        intro j2 hz k
        have hE1' : entry (swapRows R t i) k j2 = entry R k j2 := by
          rw [hE1 k j2]
          by_cases hki : k = i
          · rw [if_pos hki, hki, hz t le_rfl ht, hz i hti hiR]
          · rw [if_neg hki]
            by_cases hkt : k = t
            · rw [if_pos hkt, hkt, hz t le_rfl ht, hz i hti hiR]
            · rw [if_neg hkt]
        have hprz : ((swapRows R t i).getD t []).getD j2 0 = 0 := by
          have he : entry (swapRows R t i) t j2 = 0 := by
            rw [hE1 t j2]
            split_ifs <;> first
            | exact hz i hti hiR
            | exact hz t le_rfl ht
          exact he
        by_cases hk : k < (swapRows R t i).length
        · rw [entry, getD_eliminate (swapRows R t i) t c k hk]
          split
          · exact hE1'
          · by_cases hj : j2 < w
            · rw [getD_elimRow _ _ _ j2 (by rw [hw1 k hk]; exact hj)
                (by rw [hw1 t htR1]; exact hj), hprz, mul_zero, sub_zero]
              have hval : ((swapRows R t i).getD k []).getD j2 0 = entry R k j2 := hE1'
              rw [hval]
              rcases hb k j2 with hv | hv <;> rw [hv] <;> decide
            · rw [getD_oob _ j2 0
                (by rw [length_elimRow, hw1 k hk, hw1 t htR1]; simp <;> omega)]
              have hkR : k < R.length := by rw [← hR1len]; exact hk
              rw [entry, getD_oob _ j2 0 (by rw [hw k hkR]; omega)]
        · have h31 : entry (eliminate (swapRows R t i) t c) k j2 = 0 := by
            rw [entry, getD_oob _ k [] (by rw [length_eliminate]; omega)]
            rfl
          have hR0 : entry R k j2 = 0 := by
            rw [entry, getD_oob R k [] (by rw [← hR1len]; omega)]
            rfl
          rw [h31, hR0]
      by_cases hbr : t + 1 = R.length
      · have hrun : rre_loop (c :: rest) R t = (eliminate (swapRows R t i) t c, t + 1) := by
          rw [hstep, if_pos hbr]
        refine ⟨[c], ?_, ?_, ?_, ?_, ?_, ?_⟩ <;> rw [hrun]
        · simp
        · exact hR3len
        · exact hw3
        · exact hb3
        · exact hpres
        · exact ColsOK.last _ t c rest hUnit (by rw [hR3len]; exact hbr)
      · have hrun : rre_loop (c :: rest) R t =
            rre_loop rest (eliminate (swapRows R t i) t c) (t + 1) := by
          rw [hstep, if_neg hbr]
        obtain ⟨pv, h1, h2, h3, h4, h5, h6⟩ :=
          ih (eliminate (swapRows R t i) t c) (t + 1) w hw3 hb3
        have hzc3 : ZeroFromRow (eliminate (swapRows R t i) t c) (t + 1) c := by
          intro k hk1 hk2
          rw [hR3len] at hk2
          exact hUnit.2 k (by rw [hR3len]; exact hk2) (by omega)
        have hcolc := h5 c hzc3
        refine ⟨c :: pv, ?_, ?_, ?_, ?_, ?_, ?_⟩ <;> rw [hrun]
        · rw [h1, List.length_cons]
          omega
        · rw [h2, hR3len]
        · exact h3
        · exact h4
        · intro j2 hzj k
          have hz3 : ZeroFromRow (eliminate (swapRows R t i) t c) (t + 1) j2 := by
            intro k2 hk21 hk22
            rw [hpres j2 hzj k2]
            exact hzj k2 (by omega) (by rw [← hR3len]; exact hk22)
          rw [h5 j2 hz3 k, hpres j2 hzj k]
        · refine ColsOK.cont _ t c pv rest ?_ ?_ h6
          · constructor
            · rw [hcolc t]
              exact hUnit.1
            · intro k hk hkt
              rw [hcolc k]
              exact hUnit.2 k (by rw [← h2]; exact hk) hkt
          · rw [h2, hR3len]
            exact hbr

/-- C7: for every binary rectangular matrix `M` and column limit `max_cols`
within the matrix width (the default `None` reduces the full width),
re-applying `reduce_RREform_mod2` to its own output, with the same
`max_cols`, returns that output unchanged together with the same pivot
count: the reduced form is a fixed point of the reduction. -/
theorem reduce_RREform_mod2_idem (M : List (List Int)) (w : Nat)
    (hw : ∀ r ∈ M, r.length = w) (hb : Bin M) (mco : Option Nat)
    (hmc : mco.getD w ≤ w) :
    reduce_RREform_mod2 (reduce_RREform_mod2 M mco).1 mco =
      reduce_RREform_mod2 M mco := by
  have hwI : ∀ k, k < M.length → (M.getD k []).length = w :=
    fun k hk => hw _ (getD_mem M k [] hk)
  have hbE : BinE M := BinE_of_Bin M hb
  obtain ⟨pv, h1, h2, h3, h4, h5, h6⟩ :=
    rre_loop_run (List.range (mco.getD (M.headD []).length)) M 0 w hwI hbE
  set mc := mco.getD (M.headD []).length with hmcdef
  set RP := rre_loop (List.range mc) M 0 with hRPdef
  have hfirst : reduce_RREform_mod2 M mco = RP := rfl
  have hhead : (RP.1.headD []).length = (M.headD []).length := by
    cases hM0 : M.length with
    | zero =>
      have hMnil : M = [] := List.length_eq_zero.mp hM0
      have hRnil : RP.1 = [] := List.length_eq_zero.mp (by rw [h2, hM0])
      rw [hMnil, hRnil]
    | succ m =>
      have hMlen : 0 < M.length := by omega
      have hRlen : 0 < RP.1.length := by rw [h2]; omega
      have hh1 : RP.1.headD [] = RP.1.getD 0 [] := by
        cases hR : RP.1 with
        | nil => rw [hR] at hRlen; cases hRlen
        | cons a l => rfl
      have hh2 : M.headD [] = M.getD 0 [] := by
        cases hM : M with
        | nil => rw [hM] at hMlen; cases hMlen
        | cons a l => rfl
      rw [hh1, hh2, h3 0 hRlen, hwI 0 hMlen]
  have hmc2 : mco.getD ((RP.1.headD []).length) = mc := by
    cases mco with
    | some m => rfl
    | none =>
      rw [Option.getD_none] at hmcdef ⊢
      rw [hhead, hmcdef]
  have hsecond : reduce_RREform_mod2 RP.1 mco = rre_loop (List.range mc) RP.1 0 := by
    rw [reduce_RREform_mod2, hmc2]
  rw [hfirst, hsecond, rre_loop_fix (List.range mc) RP.1 0 pv h6]
  rw [Prod.ext_iff]
  exact ⟨rfl, h1.symm⟩

/-- Witness for C7: a concrete `3 x 3` binary matrix reduced over its full
width. -/
theorem reduce_RREform_mod2_idem_witness :
    (∀ r ∈ [[1, 1, 0], [1, 0, 1], [0, 1, 1]], List.length r = 3) ∧
    (∀ r ∈ ([[1, 1, 0], [1, 0, 1], [0, 1, 1]] : List (List Int)), ∀ x ∈ r, x = 0 ∨ x = 1) ∧
    (none : Option Nat).getD 3 ≤ 3 ∧
    reduce_RREform_mod2 (reduce_RREform_mod2 [[1, 1, 0], [1, 0, 1], [0, 1, 1]] none).1 none =
      reduce_RREform_mod2 [[1, 1, 0], [1, 0, 1], [0, 1, 1]] none :=
  ⟨by decide, by decide, by decide,
   reduce_RREform_mod2_idem [[1, 1, 0], [1, 0, 1], [0, 1, 1]] 3
     (by decide) (by unfold Bin; decide) none (by decide)⟩
